import Mathlib

/-!
Verification of the fund storage/manager component of fundwarrior
(`src/libfund/src/lib.rs`), shallowly embedded in Lean.

Strings are modelled as `List Char`; the Rust `HashMap<String, Fund>` is
modelled as an association list with unique keys, with lookup, insert and
remove mirroring hash-map semantics (insert replaces an existing binding,
remove deletes the binding).  File contents are modelled as `List Char`;
`save` is modelled as a function from the manager and the previous file
contents to the new file contents, reflecting that the Rust code opens the
file with `write(true).create(true)` and no `truncate(true)`, so writing
starts at offset 0 and any previous bytes past the written region stay.
-/

set_option autoImplicit false

deriving instance DecidableEq for Except

namespace Fundwarrior

/-- Strings, modelled as lists of characters. -/
abbrev Str := List Char

/-- `Fund` from `libfund`: a balance and a goal, as `i32` values
(modelled as unbounded integers; `load` enforces the `i32` range). -/
structure Fund where
  amount : Int
  goal : Int
deriving DecidableEq, Repr

/-- `Fund::new()`. -/
def Fund.new : Fund := ⟨0, 0⟩

/-- `Fund::with_amount`. -/
def Fund.with_amount (f : Fund) (a : Int) : Fund := { f with amount := a }

/-- `Fund::with_goal`. -/
def Fund.with_goal (f : Fund) (g : Int) : Fund := { f with goal := g }

/-- `Fund::build`. -/
def Fund.build (f : Fund) : Fund := ⟨f.amount, f.goal⟩

/-- `FundNotFoundError { name }`. -/
structure FundNotFoundError where
  name : Str
deriving DecidableEq, Repr

/-- `DuplicateFundError { name }`. -/
structure DuplicateFundError where
  name : Str
deriving DecidableEq, Repr

/-- `FundManagerError`: wrapper around the two fund errors.  The `Io`
variant carries a `std::io::Error` and is never produced by the in-memory
operations modelled here, so it is omitted. -/
inductive FundManagerError where
  | fundNotFound : FundNotFoundError → FundManagerError
  | duplicateFund : DuplicateFundError → FundManagerError
deriving DecidableEq, Repr

/-- `HashMap::get`: the value bound to key `k`, if any. -/
def findEntry : List (Str × Fund) → Str → Option Fund
  | [], _ => none
  | p :: t, k => if p.1 = k then some p.2 else findEntry t k

/-- `HashMap::contains_key`. -/
def containsKey (l : List (Str × Fund)) (k : Str) : Bool :=
  (findEntry l k).isSome

/-- `HashMap::insert`: replace the binding of `k` if present, else add it. -/
def insertEntry : List (Str × Fund) → Str → Fund → List (Str × Fund)
  | [], k, v => [(k, v)]
  | p :: t, k, v => if p.1 = k then (k, v) :: t else p :: insertEntry t k v

/-- `HashMap::remove`: the removed value (if any) and the remaining map. -/
def removeEntry : List (Str × Fund) → Str → Option Fund × List (Str × Fund)
  | [], _ => (none, [])
  | p :: t, k =>
    if p.1 = k then (some p.2, t)
    else
      let r := removeEntry t k
      (r.1, p :: r.2)

/-- `FundManager { funds: HashMap<String, Fund> }`. -/
structure FundManager where
  funds : List (Str × Fund)
deriving DecidableEq, Repr

/-- `FundManager::new()`. -/
def FundManager.new : FundManager := ⟨[]⟩

/-- `FundManager::fund`: `self.funds.get(name)`, error if absent.  Takes
`&self`; the map is returned unchanged as the second component. -/
def FundManager.fund (m : FundManager) (name : Str) :
    Except FundNotFoundError Fund × FundManager :=
  (match findEntry m.funds name with
   | some f => .ok f
   | none => .error ⟨name⟩, m)

/-- `FundManager::fund_mut`: `self.funds.get_mut(name)`, error if absent.
Handing out the mutable reference does not itself change the map, so the
map is returned unchanged. -/
def FundManager.fund_mut (m : FundManager) (name : Str) :
    Except FundNotFoundError Fund × FundManager :=
  (match findEntry m.funds name with
   | some f => .ok f
   | none => .error ⟨name⟩, m)

/-- `FundManager::add_fund`: error (map untouched) if the name is taken,
otherwise insert. -/
def FundManager.add_fund (m : FundManager) (name : Str) (f : Fund) :
    Except DuplicateFundError Unit × FundManager :=
  if containsKey m.funds name then (.error ⟨name⟩, m)
  else (.ok (), ⟨insertEntry m.funds name f⟩)

/-- `FundManager::rename`: `self.funds.remove(old_name)`, then on success
`self.add_fund(new_name, fund)?`.  Note the removal has already mutated
the map when `add_fund` fails. -/
def FundManager.rename (m : FundManager) (old_name new_name : Str) :
    Except FundManagerError Unit × FundManager :=
  match removeEntry m.funds old_name with
  | (none, _) => (.error (.fundNotFound ⟨old_name⟩), m)
  | (some f, rest) =>
    match FundManager.add_fund ⟨rest⟩ new_name f with
    | (.error e, m') => (.error (.duplicateFund e), m')
    | (.ok _, m') => (.ok (), m')

/-- `impl Extend for FundManager`: for each incoming pair, add it only if
its name is not already a key; otherwise silently skip it. -/
def FundManager.extend (m : FundManager) (iter : List (Str × Fund)) : FundManager :=
  iter.foldl
    (fun acc p =>
      if containsKey acc.funds p.1 then acc else (acc.add_fund p.1 p.2).2)
    m

/-- `impl FromIterator for FundManager`: plain `HashMap::insert` of each
pair in order (a later pair with the same name overwrites an earlier one). -/
def fundManagerFromList (l : List (Str × Fund)) : FundManager :=
  ⟨l.foldl (fun acc p => insertEntry acc p.1 p.2) []⟩

/-! ### Decimal printing (`i32::to_string`) and parsing (`i32::from_str`) -/

/-- The ASCII digit character for `n < 10`. -/
def digitChar (n : Nat) : Char := Char.ofNat (48 + n)

/-- `c` is an ASCII digit `0`-`9`. -/
def isDigitChar (c : Char) : Bool := 48 ≤ c.toNat && c.toNat ≤ 57

/-- Numeric value of an ASCII digit character. -/
def digitVal (c : Char) : Nat := c.toNat - 48

/-- Decimal digits of `n`, most significant first, prepended to `acc`.
Fuelled so that it is structurally recursive; `natToString` supplies
enough fuel. -/
def toDigitsCore : Nat → Nat → List Char → List Char
  | 0, _, acc => acc
  | fuel + 1, n, acc =>
    if n < 10 then digitChar n :: acc
    else toDigitsCore fuel (n / 10) (digitChar (n % 10) :: acc)

/-- Decimal representation of a natural number (`u32`-style `to_string`). -/
def natToString (n : Nat) : List Char := toDigitsCore (n + 1) n []

/-- `i32::to_string` / `Display for i32`: decimal, with a leading `-` for
negative values. -/
def intToString (v : Int) : List Char :=
  if v < 0 then '-' :: natToString v.natAbs else natToString v.toNat

/-- Value of a list of ASCII digit characters, most significant first. -/
def digitsVal (l : List Char) : Nat :=
  l.foldl (fun a c => a * 10 + digitVal c) 0

/-- `i32::from_str`: optional `+`/`-` sign, then one or more ASCII digits,
rejecting anything else and values outside the `i32` range. -/
def parseI32 (s : List Char) : Option Int :=
  match s with
  | [] => none
  | c :: rest =>
    let signDigits : Bool × List Char :=
      if c = '+' then (false, rest)
      else if c = '-' then (true, rest)
      else (false, c :: rest)
    match signDigits with
    | (neg, ds) =>
      if ds = [] then none
      else if ds.all isDigitChar then
        let v := digitsVal ds
        if neg then
          if v ≤ 2 ^ 31 then some (-(v : Int)) else none
        else
          if v ≤ 2 ^ 31 - 1 then some (v : Int) else none
      else none

/-! ### `display_dollars` -/

/-- `display_dollars`: render an `i32` amount of cents.  The source pads
the decimal string with leading zeros until it is at least 3 characters
long (`while amount.len() < 3 ...`, i.e. it prepends `3 - len` zeros),
splits off the last two characters as cents, and formats
`"${dollars}.{cents}"`. -/
def display_dollars (v : Int) : List Char :=
  let amount := List.replicate (3 - (intToString v).length) '0' ++ intToString v
  let dollars := amount.take (amount.length - 2)
  let cents := amount.drop (amount.length - 2)
  '$' :: (dollars ++ '.' :: cents)

/-- Spec-side helper for the re-parsing clause of the formatting contract:
drop the `$` and `.` characters from a rendered amount. -/
def stripMoney (l : List Char) : List Char :=
  l.filter (fun c => decide (c ≠ '$' ∧ c ≠ '.'))

/-! ### Line splitting (`str::split_terminator`, `BufRead::lines`) -/

/-- `str::split` on a single separator character: accumulator-based
splitter; always returns at least one (possibly empty) piece. -/
def splitAux (sep : Char) : List Char → List Char → List (List Char)
  | [], cur => [cur.reverse]
  | c :: rest, cur =>
    if c = sep then cur.reverse :: splitAux sep rest []
    else splitAux sep rest (c :: cur)

/-- `str::split(sep)`. -/
def splitChar (sep : Char) (s : List Char) : List (List Char) :=
  splitAux sep s []

/-- `str::split_terminator(sep)`: like `split`, but a trailing empty piece
(from a terminating separator, or from the empty string) is dropped. -/
def split_terminator (sep : Char) (s : List Char) : List (List Char) :=
  let ps := splitChar sep s
  if ps.getLast? = some [] then ps.dropLast else ps

/-- Strip one trailing carriage return.  `BufRead::lines` does this only
on a line that ended with `\n` (a CRLF terminator); `rustLines` below
applies it to exactly those pieces. -/
def stripCR (l : List Char) : List Char :=
  if l.getLast? = some '\r' then l.dropLast else l

/-- `BufRead::lines` on the whole contents: split on `\n`; every piece
except the last was terminated by a `\n`, so a trailing `\r` (a CRLF) is
stripped from it; the final piece is dropped when empty (contents ended
with `\n`, or were empty) and otherwise kept verbatim — in particular a
lone `\r` at end of file is NOT stripped, since only `\r\n` counts as a
line terminator. -/
def rustLines (s : List Char) : List (List Char) :=
  let ps := splitChar '\n' s
  ps.dropLast.map stripCR ++
    (match ps.getLast? with
     | some [] => []
     | some l => [l]
     | none => [])

/-! ### `FundManager::load` -/

/-- The error `load` produces: a `std::io::Error` of kind `InvalidData`
whose message embeds the fund-file path — either
`"{path} is invalid"` (fewer than 3 fields) or
`"while parsing {path}: {e}"` (a field failed to parse; the offending
field is recorded in place of the numeric error's message). -/
inductive LoadError where
  | invalidFile (path : Str)
  | invalidField (path : Str) (field : Str)
deriving DecidableEq, Repr

/-- The fund-file path embedded in a `load` error message. -/
def LoadError.path : LoadError → Str
  | .invalidFile p => p
  | .invalidField p _ => p

/-- One iteration of the `load` loop: split the line on `:` with
`split_terminator`, require at least 3 fields, parse the name (infallible
for `String`), the amount and the goal, and build the fund with the
builder chain from the source. -/
def parseLine (path : Str) (line : Str) : Except LoadError (Str × Fund) :=
  let fund_info := split_terminator ':' line
  if fund_info.length < 3 then .error (.invalidFile path)
  else
    match parseI32 (fund_info.getD 1 []) with
    | none => .error (.invalidField path (fund_info.getD 1 []))
    | some amount =>
      match parseI32 (fund_info.getD 2 []) with
      | none => .error (.invalidField path (fund_info.getD 2 []))
      | some goal =>
        .ok (fund_info.getD 0 [],
          ((Fund.new.with_amount amount).with_goal goal).build)

/-- The `load` loop over the lines: build the vector of parsed pairs in
file order, stopping with the first error. -/
def loadLines (path : Str) : List Str → Except LoadError (List (Str × Fund))
  | [] => .ok []
  | l :: rest =>
    match parseLine path l with
    | .error e => .error e
    | .ok p =>
      match loadLines path rest with
      | .error e => .error e
      | .ok ps => .ok (p :: ps)

/-- `FundManager::load`, as a function of the file's contents: parse every
line, then `collect()` the pairs through `FromIterator` (sequential
`HashMap::insert`).  Filesystem effects (directory creation, opening the
file, creating it empty when absent) are outside the model; an absent file
corresponds to empty contents. -/
def FundManager.load (path : Str) (contents : Str) : Except LoadError FundManager :=
  match loadLines path (rustLines contents) with
  | .error e => .error e
  | .ok ps => .ok (fundManagerFromList ps)

/-- The pairs `load` would collect from the well-formed lines, in file
order. -/
def parsedPairs (path contents : Str) : List (Str × Fund) :=
  (rustLines contents).filterMap (fun l =>
    match parseLine path l with
    | .ok p => some p
    | .error _ => none)

/-! ### `FundManager::save` -/

/-- The line `save` writes for one fund: `format ("{}:{}:{}\n", ...)`. -/
def fundLine (p : Str × Fund) : Str :=
  p.1 ++ ':' :: intToString p.2.amount ++ ':' :: intToString p.2.goal ++ ['\n']

/-- The bytes `save` writes: one line per fund, in the map's iteration
order (here, the order of the modelled entry list). -/
def FundManager.saveContents (m : FundManager) : Str :=
  m.funds.foldl (fun s p => s ++ fundLine p) []

/-- The file contents after `save`: the source opens the file with
`OpenOptions::new().write(true).create(true)` — no `truncate(true)` — so
writing starts at offset 0 and any previous bytes past the written region
remain in the file. -/
def FundManager.saveFile (m : FundManager) (prior : Str) : Str :=
  m.saveContents ++ prior.drop m.saveContents.length

/-! ### Lemmas about the map primitives -/

theorem findEntry_insertEntry (l : List (Str × Fund)) (n k : Str) (v : Fund) :
    findEntry (insertEntry l n v) k = if n = k then some v else findEntry l k := by
  induction l with
  | nil => simp [insertEntry, findEntry]
  | cons p t ih =>
    by_cases hp : p.1 = n
    · by_cases h : n = k <;> simp [insertEntry, hp, findEntry, h]
    · simp only [insertEntry, hp, if_false, findEntry]
      by_cases hk : p.1 = k
      · have : ¬ n = k := fun h => hp (h ▸ hk)
        simp [hk, this]
      · simp [hk, ih]

theorem containsKey_insertEntry (l : List (Str × Fund)) (n k : Str) (v : Fund) :
    containsKey (insertEntry l n v) k = (decide (n = k) || containsKey l k) := by
  by_cases h : n = k <;> simp [containsKey, findEntry_insertEntry, h]

theorem removeEntry_fst (l : List (Str × Fund)) (k : Str) :
    (removeEntry l k).1 = findEntry l k := by
  induction l with
  | nil => rfl
  | cons p t ih =>
    by_cases hp : p.1 = k
    · simp [removeEntry, findEntry, hp]
    · simp [removeEntry, findEntry, hp, ih]

theorem findEntry_removeEntry_other (l : List (Str × Fund)) (k k' : Str)
    (h : k' ≠ k) : findEntry (removeEntry l k).2 k' = findEntry l k' := by
  induction l with
  | nil => rfl
  | cons p t ih =>
    have hks : ¬ k = k' := fun hc => h hc.symm
    by_cases hp : p.1 = k
    · have : ¬ p.1 = k' := fun hc => h (hc ▸ hp ▸ rfl)
      simp [removeEntry, findEntry, hp, this, hks]
    · by_cases hk : p.1 = k'
      · simp [removeEntry, findEntry, hp, hk, hks, h]
      · simp [removeEntry, findEntry, hp, hk, hks, h, ih]

theorem findEntry_none_of_not_mem (l : List (Str × Fund)) (k : Str)
    (h : k ∉ l.map Prod.fst) : findEntry l k = none := by
  induction l with
  | nil => rfl
  | cons p t ih =>
    simp only [List.map_cons, List.mem_cons] at h
    push_neg at h
    have : ¬ p.1 = k := fun hc => h.1 hc.symm
    simp [findEntry, this, ih h.2]

theorem findEntry_removeEntry_self (l : List (Str × Fund)) (k : Str)
    (hnd : (l.map Prod.fst).Nodup) : findEntry (removeEntry l k).2 k = none := by
  induction l with
  | nil => rfl
  | cons p t ih =>
    simp only [List.map_cons, List.nodup_cons] at hnd
    by_cases hp : p.1 = k
    · simp only [removeEntry, hp, if_true]
      exact hp ▸ findEntry_none_of_not_mem t p.1 hnd.1
    · simp [removeEntry, findEntry, hp, ih hnd.2]

/-! ### Lemmas about decimal digits -/

theorem digitVal_digitChar : ∀ d, d < 10 → digitVal (digitChar d) = d := by decide

theorem isDigitChar_digitChar : ∀ d, d < 10 → isDigitChar (digitChar d) = true := by decide

theorem toDigitsCore_append (fuel : Nat) :
    ∀ n acc, toDigitsCore fuel n acc = toDigitsCore fuel n [] ++ acc := by
  induction fuel with
  | zero => intro n acc; rfl
  | succ f ih =>
    intro n acc
    by_cases h : n < 10
    · simp [toDigitsCore, h]
    · simp only [toDigitsCore, h, if_false]
      rw [ih (n / 10) (digitChar (n % 10) :: acc), ih (n / 10) [digitChar (n % 10)]]
      simp

theorem digitsVal_cons_zero (l : List Char) : digitsVal ('0' :: l) = digitsVal l := rfl

theorem digitsVal_toDigitsCore (fuel : Nat) :
    ∀ n, n < fuel → digitsVal (toDigitsCore fuel n []) = n := by
  induction fuel with
  | zero => intro n h; exact absurd h (Nat.not_lt_zero n)
  | succ f ih =>
    intro n h
    by_cases h10 : n < 10
    · simp [toDigitsCore, h10, digitsVal, digitVal_digitChar n h10]
    · have hlt : n / 10 < f := by
        have := Nat.div_lt_self (show 0 < n by omega) (show 1 < 10 by omega)
        omega
      simp only [toDigitsCore, h10, if_false]
      rw [toDigitsCore_append]
      show digitsVal (toDigitsCore f (n / 10) [] ++ [digitChar (n % 10)]) = n
      rw [digitsVal, List.foldl_append]
      show digitsVal (toDigitsCore f (n / 10) []) * 10
          + digitVal (digitChar (n % 10)) = n
      rw [ih (n / 10) hlt, digitVal_digitChar (n % 10) (Nat.mod_lt n (by omega))]
      omega

theorem toDigitsCore_digits (fuel : Nat) :
    ∀ n, n < fuel → ∀ c ∈ toDigitsCore fuel n [], isDigitChar c = true := by
  induction fuel with
  | zero => intro n h; exact absurd h (Nat.not_lt_zero n)
  | succ f ih =>
    intro n h c hc
    by_cases h10 : n < 10
    · simp only [toDigitsCore, h10, if_true, List.mem_singleton] at hc
      exact hc ▸ isDigitChar_digitChar n h10
    · have hlt : n / 10 < f := by
        have := Nat.div_lt_self (show 0 < n by omega) (show 1 < 10 by omega)
        omega
      simp only [toDigitsCore, h10, if_false] at hc
      rw [toDigitsCore_append] at hc
      rcases List.mem_append.mp hc with hm | hm
      · exact ih (n / 10) hlt c hm
      · simp only [List.mem_singleton] at hm
        exact hm ▸ isDigitChar_digitChar (n % 10) (Nat.mod_lt n (by omega))

theorem toDigitsCore_ne_nil (fuel n : Nat) (h : n < fuel) :
    toDigitsCore fuel n [] ≠ [] := by
  cases fuel with
  | zero => exact absurd h (Nat.not_lt_zero n)
  | succ f =>
    by_cases h10 : n < 10
    · simp [toDigitsCore, h10]
    · simp only [toDigitsCore, h10, if_false]
      rw [toDigitsCore_append]
      simp

theorem digitsVal_natToString (n : Nat) : digitsVal (natToString n) = n :=
  digitsVal_toDigitsCore (n + 1) n (Nat.lt_succ_self n)

theorem natToString_digits (n : Nat) : ∀ c ∈ natToString n, isDigitChar c = true :=
  toDigitsCore_digits (n + 1) n (Nat.lt_succ_self n)

theorem natToString_ne_nil (n : Nat) : natToString n ≠ [] :=
  toDigitsCore_ne_nil (n + 1) n (Nat.lt_succ_self n)

theorem digitsVal_replicate_zero (k : Nat) (s : List Char) :
    digitsVal (List.replicate k '0' ++ s) = digitsVal s := by
  induction k with
  | zero => simp
  | succ m ih =>
    rw [List.replicate_succ, List.cons_append, digitsVal_cons_zero, ih]

theorem digit_not_money (c : Char) (h : isDigitChar c = true) :
    decide (c ≠ '$' ∧ c ≠ '.') = true := by
  simp only [isDigitChar, Bool.and_eq_true, decide_eq_true_eq] at h ⊢
  constructor
  · intro hc
    rw [hc] at h
    have h36 : ('$').toNat = 36 := rfl
    omega
  · intro hc
    rw [hc] at h
    have h46 : ('.').toNat = 46 := rfl
    omega

/-! ### C3: the `display_dollars` formatting contract -/

/-- C3 (corrected, counterexample): the claim asserts that for every
integer `v`, including negative `v`, `display_dollars v` ends in two digit
characters with the sign preceding the `$`.  At `v = -5` the code yields
`"$0.-5"`: the next-to-last character is `'-'`, not a digit, and the sign
follows the `$` instead of preceding it. -/
theorem C3_counterexample :
    display_dollars (-5) = ("$0.-5").data ∧ isDigitChar '-' = false := by decide

/-- C3 (amended): for every integer `v ≥ 0`, `display_dollars v` has the
form `"$D.CC"`: a `$`, then a nonempty all-digit dollars part, a dot, and
exactly two digit characters of cents; removing the `$` and `.` and
re-parsing the digits yields `v` back.  Moreover
`display_dollars 100 = "$1.00"` and `display_dollars 5 = "$0.05"`.
(For negative `v` the rendering is malformed, see the counterexample.) -/
theorem C3_display_dollars_format (v : Int) (hv : 0 ≤ v) :
    (∃ ds cs, display_dollars v = '$' :: (ds ++ '.' :: cs) ∧
      cs.length = 2 ∧ (∀ c ∈ cs, isDigitChar c = true) ∧
      1 ≤ ds.length ∧ (∀ c ∈ ds, isDigitChar c = true) ∧
      ((digitsVal (stripMoney (display_dollars v)) : Int) = v)) ∧
    display_dollars 100 = ("$1.00").data ∧
    display_dollars 5 = ("$0.05").data := by
  refine ⟨?_, by decide, by decide⟩
  have hneg : ¬ v < 0 := not_lt.mpr hv
  obtain ⟨s, hs⟩ : ∃ s, natToString v.toNat = s := ⟨_, rfl⟩
  have hsI : intToString v = s := by simp [intToString, hneg, hs]
  have hslen : 1 ≤ s.length :=
    List.length_pos.mpr (hs ▸ natToString_ne_nil v.toNat)
  have sdigits : ∀ c ∈ s, isDigitChar c = true := hs ▸ natToString_digits v.toNat
  have sval : digitsVal s = v.toNat := hs ▸ digitsVal_natToString v.toNat
  obtain ⟨a, ha⟩ : ∃ a, List.replicate (3 - s.length) '0' ++ s = a := ⟨_, rfl⟩
  have halen : 3 ≤ a.length := by
    rw [← ha, List.length_append, List.length_replicate]
    omega
  have hadig : ∀ c ∈ a, isDigitChar c = true := by
    rw [← ha]
    intro c hc
    rcases List.mem_append.mp hc with h | h
    · rw [List.eq_of_mem_replicate h]
      rfl
    · exact sdigits c h
  have haval : digitsVal a = v.toNat := by
    rw [← ha, digitsVal_replicate_zero, sval]
  have hdisp : display_dollars v
      = '$' :: (a.take (a.length - 2) ++ '.' :: a.drop (a.length - 2)) := by
    simp only [display_dollars, hsI, ha]
  have dsdig : ∀ c ∈ a.take (a.length - 2), isDigitChar c = true :=
    fun c hc => hadig c (List.mem_of_mem_take hc)
  have csdig : ∀ c ∈ a.drop (a.length - 2), isDigitChar c = true :=
    fun c hc => hadig c (List.mem_of_mem_drop hc)
  refine ⟨a.take (a.length - 2), a.drop (a.length - 2), hdisp, ?_, csdig, ?_, dsdig, ?_⟩
  · rw [List.length_drop]
    omega
  · rw [List.length_take]
    omega
  · have p1 : (decide (('$') ≠ '$' ∧ ('$') ≠ '.')) = false := by decide
    have p2 : (decide (('.') ≠ '$' ∧ ('.') ≠ '.')) = false := by decide
    have hfds : List.filter (fun c => decide (c ≠ '$' ∧ c ≠ '.'))
        (a.take (a.length - 2)) = a.take (a.length - 2) :=
      List.filter_eq_self.mpr (fun c hc => digit_not_money c (dsdig c hc))
    have hfcs : List.filter (fun c => decide (c ≠ '$' ∧ c ≠ '.'))
        (a.drop (a.length - 2)) = a.drop (a.length - 2) :=
      List.filter_eq_self.mpr (fun c hc => digit_not_money c (csdig c hc))
    have hstrip : stripMoney (display_dollars v) = a := by
      rw [hdisp, stripMoney]
      simp only [List.filter_cons, List.filter_append, p1, p2,
        Bool.false_eq_true, if_false, hfds, hfcs]
      exact List.take_append_drop _ _
    rw [hstrip, haval]
    exact Int.toNat_of_nonneg hv

/-- C3 witness: the amended formatting theorem applied at `v = 100`. -/
theorem C3_witness : display_dollars 100 = ("$1.00").data :=
  (C3_display_dollars_format 100 (by decide)).2.1

theorem findEntry_eq_none_of_not_contains (l : List (Str × Fund)) (k : Str)
    (h : containsKey l k = false) : findEntry l k = none := by
  rcases hf : findEntry l k with _ | f
  · rfl
  · rw [containsKey, hf] at h
    simp at h

theorem exists_findEntry_of_contains (l : List (Str × Fund)) (k : Str)
    (h : containsKey l k = true) : ∃ f, findEntry l k = some f := by
  rcases hf : findEntry l k with _ | f
  · rw [containsKey, hf] at h
    simp at h
  · exact ⟨f, rfl⟩

/-! ### C6: `add_fund` -/

/-- C6: `add_fund name fund` fails with `DuplicateFund{name}` whenever
`name` is already in the map and then leaves the map (in particular the
fund stored under `name`) untouched; when `name` is absent it succeeds,
stores `fund` under `name`, and leaves every other entry unchanged. -/
theorem C6_add_fund_spec (m : FundManager) (name : Str) (f : Fund) :
    (containsKey m.funds name = true →
      m.add_fund name f = (.error ⟨name⟩, m)) ∧
    (containsKey m.funds name = false →
      (m.add_fund name f).1 = .ok () ∧
      findEntry (m.add_fund name f).2.funds name = some f ∧
      ∀ k, k ≠ name → findEntry (m.add_fund name f).2.funds k = findEntry m.funds k) := by
  constructor
  · intro h
    simp [FundManager.add_fund, h]
  · intro h
    refine ⟨by simp [FundManager.add_fund, h], ?_, ?_⟩
    · simp [FundManager.add_fund, h, findEntry_insertEntry]
    · intro k hk
      have : ¬ name = k := fun hc => hk hc.symm
      simp [FundManager.add_fund, h, findEntry_insertEntry, this]

/-- C6 witness: adding `"rent"` to the empty manager succeeds. -/
theorem C6_witness :
    ((FundManager.mk []).add_fund (("rent").data) (Fund.mk 1 2)).1 = .ok () :=
  ((C6_add_fund_spec ⟨[]⟩ (("rent").data) ⟨1, 2⟩).2 (by decide)).1

/-! ### C4: atomicity on error -/

/-- C4 (corrected, counterexample): the claim says every failing operation
leaves the map exactly as it was.  Renaming `"a"` to the existing name
`"b"` fails with `DuplicateFund{"b"}`, yet afterwards the entry under
`"a"` is gone: the fund was removed before the availability check. -/
theorem C4_counterexample :
    ((FundManager.mk [(("a").data, Fund.mk 1 2), (("b").data, Fund.mk 3 4)]).rename
        (("a").data) (("b").data)).1
      = .error (.duplicateFund ⟨("b").data⟩) ∧
    findEntry ((FundManager.mk [(("a").data, Fund.mk 1 2), (("b").data, Fund.mk 3 4)]).rename
        (("a").data) (("b").data)).2.funds (("a").data) = none ∧
    findEntry (FundManager.mk [(("a").data, Fund.mk 1 2), (("b").data, Fund.mk 3 4)]).funds
        (("a").data) = some (Fund.mk 1 2) := by decide

/-- C4 (amended): `fund`, `fund_mut` and `add_fund` never change the map
on error, and `rename` is atomic on its `FundNotFound` path; but when
`rename` fails with `DuplicateFund` the map is left with the `old_name`
entry already removed — a partial-success state. -/
theorem C4_error_atomicity (m : FundManager) (name old_name new_name : Str) (f : Fund) :
    ((m.fund name).2 = m) ∧
    ((m.fund_mut name).2 = m) ∧
    (∀ e, (m.add_fund name f).1 = .error e → (m.add_fund name f).2 = m) ∧
    (∀ e, (m.rename old_name new_name).1 = .error (.fundNotFound e) →
      (m.rename old_name new_name).2 = m) ∧
    (∀ e, (m.rename old_name new_name).1 = .error (.duplicateFund e) →
      (m.rename old_name new_name).2 = ⟨(removeEntry m.funds old_name).2⟩) := by
  refine ⟨rfl, rfl, ?_, ?_, ?_⟩
  · intro e he
    by_cases h : containsKey m.funds name
    · simp [FundManager.add_fund, h]
    · simp [FundManager.add_fund, h] at he
  · intro e he
    rcases hr : removeEntry m.funds old_name with ⟨r1, r2⟩
    rcases r1 with _ | fnd
    · simp [FundManager.rename, hr]
    · by_cases h : containsKey r2 new_name
      · simp [FundManager.rename, hr, FundManager.add_fund, h] at he
      · simp [FundManager.rename, hr, FundManager.add_fund, h] at he
  · intro e he
    rcases hr : removeEntry m.funds old_name with ⟨r1, r2⟩
    rcases r1 with _ | fnd
    · simp [FundManager.rename, hr] at he
    · by_cases h : containsKey r2 new_name
      · simp [FundManager.rename, hr, FundManager.add_fund, h]
      · simp [FundManager.rename, hr, FundManager.add_fund, h] at he

/-- C4 witness: `add_fund` on a taken name errors and leaves the map as it
was. -/
theorem C4_witness :
    ((FundManager.mk [(("a").data, Fund.mk 1 2)]).add_fund (("a").data) (Fund.mk 9 9)).2
      = FundManager.mk [(("a").data, Fund.mk 1 2)] :=
  (C4_error_atomicity ⟨[(("a").data, ⟨1, 2⟩)]⟩ (("a").data) (("a").data) (("a").data)
    ⟨9, 9⟩).2.2.1 ⟨("a").data⟩ (by decide)

/-! ### C5 and C10: `rename` -/

/-- C5 (corrected, counterexample): the claim says `rename` fails with
`DuplicateFund{new_name}` whenever `new_name` is already present.  With
the map holding `"a"`, `rename "a" "a"` has its new name present before
the call, yet it succeeds (the entry is removed before the availability
check). -/
theorem C5_counterexample :
    containsKey (FundManager.mk [(("a").data, Fund.mk 1 2)]).funds (("a").data) = true ∧
    ((FundManager.mk [(("a").data, Fund.mk 1 2)]).rename (("a").data) (("a").data)).1
      = .ok () := by decide

/-- C5 (amended): on a manager with unique keys, `rename old_name
new_name` fails with `FundNotFound{old_name}` when `old_name` is absent;
fails with `DuplicateFund{new_name}` when `old_name` is present,
`new_name` is present and `new_name ≠ old_name`; and succeeds when
`old_name` is present and `new_name` absent, moving the fund (same amount
and goal) from `old_name` to `new_name`.  (When `new_name = old_name` and
the name is present, `rename` succeeds; see C10.) -/
theorem C5_rename_spec (m : FundManager) (old_name new_name : Str)
    (hnd : (m.funds.map Prod.fst).Nodup) :
    (containsKey m.funds old_name = false →
      m.rename old_name new_name = (.error (.fundNotFound ⟨old_name⟩), m)) ∧
    (containsKey m.funds old_name = true → containsKey m.funds new_name = true →
      new_name ≠ old_name →
      (m.rename old_name new_name).1 = .error (.duplicateFund ⟨new_name⟩)) ∧
    (∀ f, findEntry m.funds old_name = some f → containsKey m.funds new_name = false →
      (m.rename old_name new_name).1 = .ok () ∧
      findEntry (m.rename old_name new_name).2.funds old_name = none ∧
      findEntry (m.rename old_name new_name).2.funds new_name = some f ∧
      ∀ k, k ≠ old_name → k ≠ new_name →
        findEntry (m.rename old_name new_name).2.funds k = findEntry m.funds k) := by
  refine ⟨?_, ?_, ?_⟩
  · intro h
    have h0 : findEntry m.funds old_name = none := findEntry_eq_none_of_not_contains _ _ h
    have hr1 : (removeEntry m.funds old_name).1 = none := by
      rw [removeEntry_fst, h0]
    rcases hr : removeEntry m.funds old_name with ⟨r1, r2⟩
    rw [hr] at hr1
    subst hr1
    simp [FundManager.rename, hr]
  · intro ho hn hne
    obtain ⟨f, hf⟩ := exists_findEntry_of_contains _ _ ho
    have hr1 : (removeEntry m.funds old_name).1 = some f := by
      rw [removeEntry_fst, hf]
    rcases hr : removeEntry m.funds old_name with ⟨r1, r2⟩
    rw [hr] at hr1
    subst hr1
    have hc2 : containsKey r2 new_name = true := by
      have := findEntry_removeEntry_other m.funds old_name new_name hne
      rw [hr] at this
      rw [containsKey, this]
      rw [containsKey] at hn
      exact hn
    simp [FundManager.rename, hr, FundManager.add_fund, hc2]
  · intro f hf hn
    have hne : new_name ≠ old_name := by
      intro hc
      rw [hc] at hn
      rw [containsKey, hf] at hn
      simp at hn
    have hr1 : (removeEntry m.funds old_name).1 = some f := by
      rw [removeEntry_fst, hf]
    rcases hr : removeEntry m.funds old_name with ⟨r1, r2⟩
    rw [hr] at hr1
    subst hr1
    have hro : findEntry r2 old_name = none := by
      have := findEntry_removeEntry_self m.funds old_name hnd
      rw [hr] at this
      exact this
    have hc2 : containsKey r2 new_name = false := by
      have := findEntry_removeEntry_other m.funds old_name new_name hne
      rw [hr] at this
      rw [containsKey, this]
      rw [containsKey] at hn
      exact hn
    have hstep : m.rename old_name new_name = (.ok (), ⟨insertEntry r2 new_name f⟩) := by
      simp [FundManager.rename, hr, FundManager.add_fund, hc2]
    refine ⟨by rw [hstep], ?_, ?_, ?_⟩
    · rw [hstep]
      show findEntry (insertEntry r2 new_name f) old_name = none
      rw [findEntry_insertEntry]
      simp [hne, hro]
    · rw [hstep]
      show findEntry (insertEntry r2 new_name f) new_name = some f
      rw [findEntry_insertEntry]
      simp
    · intro k hko hkn
      rw [hstep]
      show findEntry (insertEntry r2 new_name f) k = findEntry m.funds k
      rw [findEntry_insertEntry]
      have h1 : ¬ new_name = k := fun hc => hkn hc.symm
      have h2 := findEntry_removeEntry_other m.funds old_name k hko
      rw [hr] at h2
      simp [h1, h2]

/-- C5 witness: renaming `"a"` to the fresh name `"b"` succeeds. -/
theorem C5_witness :
    ((FundManager.mk [(("a").data, Fund.mk 1 2)]).rename (("a").data) (("b").data)).1
      = .ok () :=
  ((C5_rename_spec ⟨[(("a").data, ⟨1, 2⟩)]⟩ (("a").data) (("b").data) (by decide)).2.2
    ⟨1, 2⟩ (by decide) (by decide)).1

/-- C10: for a manager containing `n` (with unique keys), `rename n n`
succeeds — it does not return `DuplicateFund` even though `n` is present
before the call — and the map is unchanged: the entry is removed before
the availability check and re-inserted under the same name. -/
theorem C10_rename_self (m : FundManager) (n : Str) (f : Fund)
    (hnd : (m.funds.map Prod.fst).Nodup) (h : findEntry m.funds n = some f) :
    (m.rename n n).1 = .ok () ∧
    ∀ k, findEntry (m.rename n n).2.funds k = findEntry m.funds k := by
  have hr1 : (removeEntry m.funds n).1 = some f := by
    rw [removeEntry_fst, h]
  rcases hr : removeEntry m.funds n with ⟨r1, r2⟩
  rw [hr] at hr1
  subst hr1
  have hro : findEntry r2 n = none := by
    have := findEntry_removeEntry_self m.funds n hnd
    rw [hr] at this
    exact this
  have hc2 : containsKey r2 n = false := by
    rw [containsKey, hro]
    rfl
  have hstep : m.rename n n = (.ok (), ⟨insertEntry r2 n f⟩) := by
    simp [FundManager.rename, hr, FundManager.add_fund, hc2]
  refine ⟨by rw [hstep], ?_⟩
  intro k
  rw [hstep]
  show findEntry (insertEntry r2 n f) k = findEntry m.funds k
  rw [findEntry_insertEntry]
  by_cases hk : n = k
  · subst hk
    simp [h]
  · have h2 := findEntry_removeEntry_other m.funds n k (fun hc => hk hc.symm)
    rw [hr] at h2
    simp [hk, h2]

/-- C10 witness: `rename "a" "a"` on a singleton manager succeeds and
leaves the entry in place. -/
theorem C10_witness :
    ((FundManager.mk [(("a").data, Fund.mk 1 2)]).rename (("a").data) (("a").data)).1
        = .ok () ∧
    findEntry ((FundManager.mk [(("a").data, Fund.mk 1 2)]).rename (("a").data)
        (("a").data)).2.funds (("a").data)
      = findEntry (FundManager.mk [(("a").data, Fund.mk 1 2)]).funds (("a").data) := by
  have h := C10_rename_self ⟨[(("a").data, ⟨1, 2⟩)]⟩ (("a").data) ⟨1, 2⟩
    (by decide) (by decide)
  exact ⟨h.1, h.2 (("a").data)⟩

/-! ### C7: the `Extend` merge policy -/

theorem extend_nil (m : FundManager) : m.extend [] = m := rfl

theorem extend_cons (m : FundManager) (p : Str × Fund) (t : List (Str × Fund)) :
    m.extend (p :: t)
      = (if containsKey m.funds p.1 then m else (m.add_fund p.1 p.2).2).extend t := rfl

theorem extend_findEntry_of_contains (l : List (Str × Fund)) :
    ∀ (m : FundManager) (k : Str), containsKey m.funds k = true →
      findEntry (m.extend l).funds k = findEntry m.funds k := by
  induction l with
  | nil => intro m k _; rfl
  | cons p t ih =>
    intro m k hk
    rw [extend_cons]
    by_cases hc : containsKey m.funds p.1
    · rw [if_pos hc]
      exact ih m k hk
    · rw [if_neg hc]
      have hpk : ¬ p.1 = k := by
        intro hc'
        rw [hc'] at hc
        exact hc hk
      have hadd : (m.add_fund p.1 p.2).2 = ⟨insertEntry m.funds p.1 p.2⟩ := by
        simp [FundManager.add_fund, hc]
      rw [hadd]
      have hm' : containsKey (insertEntry m.funds p.1 p.2) k = true := by
        rw [containsKey_insertEntry]
        simp [hk]
      rw [ih ⟨insertEntry m.funds p.1 p.2⟩ k hm']
      show findEntry (insertEntry m.funds p.1 p.2) k = findEntry m.funds k
      rw [findEntry_insertEntry]
      simp [hpk]

theorem extend_findEntry_of_not_contains (l : List (Str × Fund)) :
    ∀ (m : FundManager) (k : Str), containsKey m.funds k = false →
      findEntry (m.extend l).funds k
        = (l.find? (fun p => decide (p.1 = k))).map (fun p => p.2) := by
  induction l with
  | nil =>
    intro m k h
    simp [extend_nil, List.find?, findEntry_eq_none_of_not_contains _ _ h]
  | cons p t ih =>
    intro m k hk
    rw [extend_cons]
    by_cases he : p.1 = k
    · have hc : ¬ containsKey m.funds p.1 = true := by
        rw [he]
        simp [hk]
      rw [if_neg hc]
      have hadd : (m.add_fund p.1 p.2).2 = ⟨insertEntry m.funds p.1 p.2⟩ := by
        simp [FundManager.add_fund, hc]
      rw [hadd]
      have hm' : containsKey (insertEntry m.funds p.1 p.2) k = true := by
        rw [containsKey_insertEntry]
        simp [he]
      rw [extend_findEntry_of_contains t ⟨insertEntry m.funds p.1 p.2⟩ k hm']
      show findEntry (insertEntry m.funds p.1 p.2) k = _
      rw [findEntry_insertEntry, if_pos he]
      simp [List.find?, he]
    · have hfind : (p :: t).find? (fun q => decide (q.1 = k))
          = t.find? (fun q => decide (q.1 = k)) := by
        simp [List.find?, he]
      rw [hfind]
      by_cases hc : containsKey m.funds p.1
      · rw [if_pos hc]
        exact ih m k hk
      · rw [if_neg hc]
        have hadd : (m.add_fund p.1 p.2).2 = ⟨insertEntry m.funds p.1 p.2⟩ := by
          simp [FundManager.add_fund, hc]
        rw [hadd]
        have hm' : containsKey (insertEntry m.funds p.1 p.2) k = false := by
          rw [containsKey_insertEntry]
          simp [he, hk]
        exact ih ⟨insertEntry m.funds p.1 p.2⟩ k hm'

/-- C7: extending a manager adds an incoming pair only when its name is
not present at the moment it is processed (so for a name absent from the
manager, the first incoming pair with that name wins), silently drops
colliding pairs, and leaves every pre-existing entry unchanged; in
particular extending `{"A": Fund(100,200)}` with
`[("A", Fund(999,999)), ("B", Fund(5,5))]` yields
`{"A": Fund(100,200), "B": Fund(5,5)}`. -/
theorem C7_extend_spec (m : FundManager) (l : List (Str × Fund)) :
    (∀ k, containsKey m.funds k = true →
      findEntry (m.extend l).funds k = findEntry m.funds k) ∧
    (∀ k, containsKey m.funds k = false →
      findEntry (m.extend l).funds k
        = (l.find? (fun p => decide (p.1 = k))).map (fun p => p.2)) ∧
    (FundManager.mk [(("A").data, Fund.mk 100 200)]).extend
        [(("A").data, Fund.mk 999 999), (("B").data, Fund.mk 5 5)]
      = FundManager.mk [(("A").data, Fund.mk 100 200), (("B").data, Fund.mk 5 5)] :=
  ⟨fun k h => extend_findEntry_of_contains l m k h,
   fun k h => extend_findEntry_of_not_contains l m k h,
   by decide⟩

/-- C7 witness: in the claim's own example the pre-existing `"A"` keeps
its amount and goal. -/
theorem C7_witness :
    findEntry ((FundManager.mk [(("A").data, Fund.mk 100 200)]).extend
        [(("A").data, Fund.mk 999 999), (("B").data, Fund.mk 5 5)]).funds (("A").data)
      = findEntry (FundManager.mk [(("A").data, Fund.mk 100 200)]).funds (("A").data) :=
  (C7_extend_spec ⟨[(("A").data, ⟨100, 200⟩)]⟩
      [(("A").data, ⟨999, 999⟩), (("B").data, ⟨5, 5⟩)]).1 (("A").data) (by decide)

/-! ### C8 and C9: `load` -/

theorem parseLine_error_path (path line : Str) (e : LoadError)
    (h : parseLine path line = .error e) : e.path = path := by
  rw [parseLine] at h
  split at h
  · injection h with h'
    rw [← h']
    rfl
  · split at h
    · injection h with h'
      rw [← h']
      rfl
    · split at h
      · injection h with h'
        rw [← h']
        rfl
      · cases h

theorem parseLine_error_of_bad (path line : Str)
    (h : (split_terminator ':' line).length < 3 ∨
      parseI32 ((split_terminator ':' line).getD 1 []) = none ∨
      parseI32 ((split_terminator ':' line).getD 2 []) = none) :
    ∃ e, parseLine path line = .error e := by
  rw [parseLine]
  split
  · exact ⟨_, rfl⟩
  · rename_i h3
    rcases h with h | h | h
    · exact absurd h h3
    · rw [h]
      exact ⟨_, rfl⟩
    · split
      · exact ⟨_, rfl⟩
      · rw [h]
        exact ⟨_, rfl⟩

theorem loadLines_error (path : Str) (ls : List Str)
    (h : ∃ l ∈ ls, ∃ e, parseLine path l = .error e) :
    ∃ e, loadLines path ls = .error e ∧ e.path = path := by
  induction ls with
  | nil =>
    rcases h with ⟨l, hl, _⟩
    cases hl
  | cons l t ih =>
    cases hp : parseLine path l with
    | error e =>
      exact ⟨e, by simp [loadLines, hp], parseLine_error_path path l e hp⟩
    | ok p =>
      rcases h with ⟨l', hl', e', he'⟩
      rcases List.mem_cons.mp hl' with rfl | hmem
      · rw [hp] at he'
        cases he'
      · obtain ⟨e, h1, h2⟩ := ih ⟨l', hmem, e', he'⟩
        refine ⟨e, ?_, h2⟩
        simp [loadLines, hp, h1]

/-- C8: whenever some line of the file has fewer than 3 colon-delimited
fields, or a non-parsing amount field, or a non-parsing goal field, `load`
returns a parse error that carries the file path; it is a total function
(no panic) and never skips the malformed line silently. -/
theorem C8_malformed_load_error (path contents : Str)
    (h : ∃ l ∈ rustLines contents,
      (split_terminator ':' l).length < 3 ∨
      parseI32 ((split_terminator ':' l).getD 1 []) = none ∨
      parseI32 ((split_terminator ':' l).getD 2 []) = none) :
    ∃ e, FundManager.load path contents = .error e ∧ e.path = path := by
  obtain ⟨l, hl, hbad⟩ := h
  obtain ⟨e, h1, h2⟩ := loadLines_error path (rustLines contents)
    ⟨l, hl, parseLine_error_of_bad path l hbad⟩
  exact ⟨e, by simp [FundManager.load, h1], h2⟩

/-- C8 witness: loading contents whose only line is `bad` (one field)
yields an error carrying the path. -/
theorem C8_witness :
    ∃ e, FundManager.load (("p").data) (("bad").data) = .error e ∧
      e.path = ("p").data :=
  C8_malformed_load_error (("p").data) (("bad").data)
    ⟨("bad").data, by decide, by decide⟩

theorem loadLines_ok (path : Str) (ls : List Str)
    (h : ∀ l ∈ ls, ∃ p, parseLine path l = .ok p) :
    loadLines path ls = .ok (ls.filterMap (fun l =>
      match parseLine path l with
      | .ok p => some p
      | .error _ => none)) := by
  induction ls with
  | nil => rfl
  | cons l t ih =>
    obtain ⟨p, hp⟩ := h l (List.mem_cons_self l t)
    have ht := ih (fun l' hl' => h l' (List.mem_cons_of_mem l hl'))
    simp [loadLines, hp, ht, List.filterMap_cons]

theorem findEntry_foldl_insert (ps : List (Str × Fund)) :
    ∀ (acc : List (Str × Fund)) (k : Str),
      findEntry (ps.foldl (fun a p => insertEntry a p.1 p.2) acc) k
        = match ps.reverse.find? (fun p => decide (p.1 = k)) with
          | some p => some p.2
          | none => findEntry acc k := by
  induction ps with
  | nil => intro acc k; rfl
  | cons p t ih =>
    intro acc k
    rw [List.foldl_cons, ih (insertEntry acc p.1 p.2) k, List.reverse_cons,
      List.find?_append]
    rcases hf : t.reverse.find? (fun q => decide (q.1 = k)) with _ | q
    · by_cases hpk : p.1 = k
      · simp [List.find?, hpk, findEntry_insertEntry, hf]
      · simp [List.find?, hpk, findEntry_insertEntry, hf]
    · simp [hf]

/-- C9: when every line of the file parses as `name:amount:goal`, `load`
succeeds, and each name maps to the amount and goal of the *last* line in
file order bearing that name — a later duplicate silently overwrites an
earlier one, with no error. -/
theorem C9_load_last_wins (path contents : Str)
    (h : ∀ l ∈ rustLines contents, ∃ p, parseLine path l = .ok p) :
    ∃ m, FundManager.load path contents = .ok m ∧
      ∀ k, findEntry m.funds k
        = ((parsedPairs path contents).reverse.find?
            (fun p => decide (p.1 = k))).map (fun p => p.2) := by
  have hok := loadLines_ok path (rustLines contents) h
  refine ⟨fundManagerFromList (parsedPairs path contents), ?_, ?_⟩
  · rw [FundManager.load]
    rw [show loadLines path (rustLines contents)
        = .ok (parsedPairs path contents) from hok]
  · intro k
    show findEntry ((parsedPairs path contents).foldl
        (fun a p => insertEntry a p.1 p.2) []) k = _
    rw [findEntry_foldl_insert (parsedPairs path contents) [] k]
    cases hq : (parsedPairs path contents).reverse.find? (fun p => decide (p.1 = k)) with
    | none => rfl
    | some q => rfl

/-- C9 witness: in a file with two lines for `"a"`, the second line's
amount and goal win. -/
theorem C9_witness :
    ∃ m, FundManager.load (("p").data) (("a:1:2\na:3:4\n").data) = .ok m ∧
      ∀ k, findEntry m.funds k
        = ((parsedPairs (("p").data) (("a:1:2\na:3:4\n").data)).reverse.find?
            (fun p => decide (p.1 = k))).map (fun p => p.2) :=
  C9_load_last_wins (("p").data) (("a:1:2\na:3:4\n").data) (by
    have hls : rustLines (("a:1:2\na:3:4\n").data)
        = [("a:1:2").data, ("a:3:4").data] := by decide
    intro l hl
    rw [hls] at hl
    rcases List.mem_cons.mp hl with rfl | hl
    · exact ⟨((("a").data), ⟨1, 2⟩), by decide⟩
    · rcases List.mem_cons.mp hl with rfl | hl
      · exact ⟨((("a").data), ⟨3, 4⟩), by decide⟩
      · cases hl)

/-! ### C1 and C2: `save` does not truncate the file -/

/-- C1 (code bug): the round-trip property fails.  `save` opens the file
with `write(true).create(true)` but no `truncate(true)`, so saving the
manager `{"a": Fund(1,2)}` over a file that previously held
`"aaaa:11:22\n"` leaves the file as `"a:1:2\n1:22\n"`; loading that file
then fails with an `InvalidData` error instead of returning a manager
with the same name-to-(amount, goal) pairs. -/
theorem C1_roundtrip_violation :
    FundManager.saveFile (FundManager.mk [(("a").data, Fund.mk 1 2)])
        (("aaaa:11:22\n").data)
      = ("a:1:2\n1:22\n").data ∧
    FundManager.load (("p").data)
        (FundManager.saveFile (FundManager.mk [(("a").data, Fund.mk 1 2)])
          (("aaaa:11:22\n").data))
      = .error (.invalidFile (("p").data)) := by decide

/-- C2 (code bug): the saved file is not independent of the previous file
contents.  Saving the manager `{"a": Fund(0,0)}` over a file previously
holding ten `Z`s leaves `"a:0:0\nZZZZ"`: the four bytes past the written
region survive, so the file does not contain exactly the fund lines. -/
theorem C2_save_not_truncating :
    FundManager.saveFile (FundManager.mk [(("a").data, Fund.mk 0 0)])
        (("ZZZZZZZZZZ").data)
      = ("a:0:0\nZZZZ").data ∧
    FundManager.saveFile (FundManager.mk [(("a").data, Fund.mk 0 0)])
        (("ZZZZZZZZZZ").data)
      ≠ FundManager.saveContents (FundManager.mk [(("a").data, Fund.mk 0 0)]) := by
  decide

end Fundwarrior
